import Mathlib

/-!
Verification of the prompt-generation core of the Bengali→Sylheti translation
repository.  Text is modelled as `List Char` (Lean `Char` is a Unicode scalar
value, matching Python's code-point view of `str`).  Pure functions are
translated directly from `bengali_to_sylheti_prompt_generator.py`; the two
randomized steps of `select_fewshot_examples` (`random.sample` and
`random.shuffle`) are modelled relationally, quantifying over every draw the
random generator could produce.
-/

open List

/-- Text, modelled as the list of Unicode scalar values of a Python `str`. -/
abbrev Str := List Char

/-- Membership of a code point in the character class `[ঀ-৿]`
(the Bengali script block) used by both tokenizers in the repository. -/
def isBengaliChar (c : Char) : Bool := 0x0980 ≤ c.toNat && c.toNat ≤ 0x09FF

/-- One scanning step of the run extractor: the Bengali character `c` either
extends the run that starts at the next character of the text (when that one
is Bengali too) or opens a new run of its own.  `cs` is the text after `c`
and `rs` the runs already extracted from `cs`. -/
def glueRun (c : Char) (cs : Str) (rs : List Str) : List Str :=
  match cs, rs with
  | d :: _, r :: rs2 => if isBengaliChar d then (c :: r) :: rs2 else [c] :: r :: rs2
  | _, rs => [c] :: rs

/-- `re.findall(r'[ঀ-৿]+', s)`: the maximal runs of Bengali-block
characters of `s`, left to right; every other character is skipped. -/
def bengaliRuns : Str → List Str
  | [] => []
  | c :: cs => if isBengaliChar c then glueRun c cs (bengaliRuns cs) else bengaliRuns cs

/-- `tokenize_sentence` from `bengali_to_sylheti_prompt_generator.py` (and
`tokenize_bangla` from `glossary_retriever.py`, which is the same regex). -/
def tokenize_sentence (sentence : Str) : List Str := bengaliRuns sentence

/-- The decomposition of a text into its maximal Bengali-script runs, as the
specification describes it: separator characters are outside the script
block, a run is a non-empty all-script block, and a run is maximal because
the text continuing after it does not start with a script character. -/
inductive MaximalRuns : Str → List Str → Prop
  | nil : MaximalRuns [] []
  | sep (c : Char) (t : Str) (toks : List Str) :
      isBengaliChar c = false → MaximalRuns t toks → MaximalRuns (c :: t) toks
  | run (r : Str) (t : Str) (toks : List Str) :
      r ≠ [] → (∀ c ∈ r, isBengaliChar c = true) →
      (∀ d, t.head? = some d → isBengaliChar d = false) →
      MaximalRuns t toks → MaximalRuns (r ++ t) (r :: toks)

lemma bengaliRuns_cons (c : Char) (cs : Str) :
    bengaliRuns (c :: cs) =
      if isBengaliChar c then glueRun c cs (bengaliRuns cs) else bengaliRuns cs := rfl

lemma glueRun_nil (c : Char) (rs : List Str) : glueRun c [] rs = [c] :: rs := by
  simp [glueRun]

lemma glueRun_cons_bengali (c d : Char) (ds : Str) (r : Str) (rs : List Str)
    (hd : isBengaliChar d = true) :
    glueRun c (d :: ds) (r :: rs) = (c :: r) :: rs := by
  simp [glueRun, hd]

lemma glueRun_of_not_bengali (c d : Char) (ds : Str) (rs : List Str)
    (hd : isBengaliChar d = false) : glueRun c (d :: ds) rs = [c] :: rs := by
  cases rs with
  | nil => simp [glueRun]
  | cons r rs2 => simp [glueRun, hd]

lemma bengaliRuns_cons_of_bengali (d : Char) (ds : Str)
    (hd : isBengaliChar d = true) :
    ∃ r rs, bengaliRuns (d :: ds) = (d :: r) :: rs := by
  rw [bengaliRuns_cons, if_pos hd]
  cases ds with
  | nil => exact ⟨[], [], by rw [glueRun_nil]; rfl⟩
  | cons e es =>
    cases he : isBengaliChar e with
    | true =>
      obtain ⟨r, rs, hr⟩ := bengaliRuns_cons_of_bengali e es he
      rw [hr, glueRun_cons_bengali d e es (e :: r) rs he]
      exact ⟨e :: r, rs, rfl⟩
    | false =>
      rw [glueRun_of_not_bengali d e es _ he]
      exact ⟨[], bengaliRuns (e :: es), rfl⟩

lemma maximalRuns_cons_bengali_inv (t : Str) (toks : List Str)
    (h : MaximalRuns t toks) (d : Char) (ds : Str)
    (ht : t = d :: ds) (hd : isBengaliChar d = true) :
    ∃ r t2 toks2, toks = (d :: r) :: toks2 ∧ t = (d :: r) ++ t2 ∧
      (∀ x ∈ r, isBengaliChar x = true) ∧
      (∀ e, t2.head? = some e → isBengaliChar e = false) ∧
      MaximalRuns t2 toks2 := by
  cases h with
  | nil => simp at ht
  | sep c' t' toks' hsep _ =>
    obtain ⟨hcd, _⟩ := List.cons.inj ht
    rw [hcd] at hsep
    rw [hsep] at hd
    cases hd
  | run r' t' toks' hne hall hhead hrest =>
    cases r' with
    | nil => exact absurd rfl hne
    | cons a r =>
      have hat : a :: (r ++ t') = d :: ds := ht
      obtain ⟨had, _⟩ := List.cons.inj hat
      subst had
      exact ⟨r, t', toks', rfl, rfl, fun x hx => hall x (List.mem_cons_of_mem a hx),
        hhead, hrest⟩

lemma maximalRuns_bengaliRuns (t : Str) : MaximalRuns t (bengaliRuns t) := by
  induction t with
  | nil => exact .nil
  | cons c cs ih =>
    cases hc : isBengaliChar c with
    | false =>
      rw [bengaliRuns_cons, if_neg (by simp [hc])]
      exact .sep c cs _ hc ih
    | true =>
      rw [bengaliRuns_cons, if_pos hc]
      cases cs with
      | nil =>
        rw [glueRun_nil]
        exact .run [c] [] [] (by simp) (by simp [hc]) (by simp) .nil
      | cons d ds =>
        cases hd : isBengaliChar d with
        | true =>
          obtain ⟨r, rs, hr⟩ := bengaliRuns_cons_of_bengali d ds hd
          rw [hr, glueRun_cons_bengali c d ds (d :: r) rs hd]
          rw [hr] at ih
          obtain ⟨r0, t2, toks2, htoks, hdec, hallr, hhead, hrest⟩ :=
            maximalRuns_cons_bengali_inv (d :: ds) ((d :: r) :: rs) ih d ds rfl hd
          obtain ⟨hr0, htoks2⟩ := List.cons.inj htoks
          obtain ⟨-, hr0r⟩ := List.cons.inj hr0
          subst htoks2
          subst hr0r
          have hbuild : MaximalRuns ((c :: d :: r) ++ t2) ((c :: d :: r) :: rs) := by
            refine .run _ _ _ (by simp) ?_ hhead hrest
            intro x hx
            rcases List.mem_cons.mp hx with h | h
            · subst h; exact hc
            · rcases List.mem_cons.mp h with h2 | h2
              · subst h2; exact hd
              · exact hallr x h2
          have hts : c :: d :: ds = (c :: d :: r) ++ t2 := by
            have hdd : d :: ds = (d :: r) ++ t2 := hdec
            simp only [List.cons_append]
            rw [← List.cons_append]
            rw [← hdd]
          rw [hts]
          exact hbuild
        | false =>
          rw [glueRun_of_not_bengali c d ds _ hd]
          exact .run [c] (d :: ds) _ (by simp) (by simp [hc])
            (by intro x hx; simp at hx; subst hx; exact hd) ih

lemma maximalRuns_toks_sound (t : Str) (toks : List Str) (h : MaximalRuns t toks) :
    ∀ r ∈ toks, r ≠ [] ∧ ∀ c ∈ r, isBengaliChar c = true := by
  induction h with
  | nil => intro r hr; simp at hr
  | sep c t toks hsep hrec ih => exact ih
  | run r t toks hne hall hhead hrec ih =>
    intro r2 hr2
    rcases List.mem_cons.mp hr2 with h | h
    · subst h; exact ⟨hne, hall⟩
    · exact ih r2 h

lemma maximalRuns_flatten (t : Str) (toks : List Str) (h : MaximalRuns t toks) :
    toks.flatten = t.filter isBengaliChar := by
  induction h with
  | nil => simp
  | sep c t toks hsep hrec ih => simp [List.filter_cons, hsep, ih]
  | run r t toks hne hall hhead hrec ih =>
    rw [List.flatten_cons, List.filter_append, ih, List.filter_eq_self.mpr hall]

lemma maximalRuns_mem_infix (t : Str) (toks : List Str) (h : MaximalRuns t toks) :
    ∀ r ∈ toks, r <:+: t := by
  induction h with
  | nil => intro r hr; simp at hr
  | sep c t toks hsep hrec ih =>
    intro r hr
    obtain ⟨s, u, hsu⟩ := ih r hr
    exact ⟨c :: s, u, by rw [← hsu]; rfl⟩
  | run r t toks hne hall hhead hrec ih =>
    intro r2 hr2
    rcases List.mem_cons.mp hr2 with h | h
    · subst h; exact ⟨[], t, rfl⟩
    · obtain ⟨s, u, hsu⟩ := ih r2 h
      exact ⟨r ++ s, u, by rw [← hsu]; simp⟩

lemma tokenize_mem_infix (t : Str) (r : Str) (h : r ∈ tokenize_sentence t) : r <:+: t :=
  maximalRuns_mem_infix t (bengaliRuns t) (maximalRuns_bengaliRuns t) r h

/-- C8: `tokenize_sentence` returns exactly the maximal runs of Bengali-block
characters (U+0980–U+09FF) of the text, in order of appearance: the output is
a maximal-runs decomposition of the input, every token is a non-empty string
of script characters only, their concatenation is exactly the subsequence of
script characters of the input (so every other character is discarded as a
separator), and the output is empty exactly when the text has no script
character. -/
theorem tokenize_sentence_maximal_runs (t : Str) :
    MaximalRuns t (tokenize_sentence t) ∧
    (∀ r ∈ tokenize_sentence t, r ≠ [] ∧ ∀ c ∈ r, isBengaliChar c = true) ∧
    (tokenize_sentence t).flatten = t.filter isBengaliChar ∧
    (tokenize_sentence t = [] ↔ ∀ c ∈ t, isBengaliChar c = false) := by
  simp only [tokenize_sentence]
  have hm := maximalRuns_bengaliRuns t
  refine ⟨hm, maximalRuns_toks_sound t _ hm, maximalRuns_flatten t _ hm, ?_⟩
  constructor
  · intro hnil c hc
    have hfl : t.filter isBengaliChar = [] := by
      rw [← maximalRuns_flatten t _ hm, hnil, List.flatten_nil]
    by_contra hb
    have : c ∈ t.filter isBengaliChar :=
      List.mem_filter.mpr ⟨hc, by simp at hb; simp [hb]⟩
    rw [hfl] at this
    simp at this
  · intro hall
    have hfl : t.filter isBengaliChar = [] := by
      rw [List.filter_eq_nil_iff]
      intro c hc
      simp [hall c hc]
    have hflat : (bengaliRuns t).flatten = [] := by
      rw [maximalRuns_flatten t _ hm, hfl]
    cases htoks : bengaliRuns t with
    | nil => rfl
    | cons r rs =>
      obtain ⟨hne, -⟩ := maximalRuns_toks_sound t _ hm r (by rw [htoks]; exact List.mem_cons_self r rs)
      rw [htoks, List.flatten_cons] at hflat
      exact absurd (List.append_eq_nil.mp hflat).1 hne

/-- Python `str.lower()`, per character.  Lean's `Char.toLower` lower-cases
cased ASCII letters; on the Bengali block (a caseless script) and on
whitespace both it and Python's `str.lower` are the identity. -/
def pyLower (s : Str) : Str := s.map Char.toLower

/-- Python `str.strip()`: drop leading and trailing whitespace. -/
def pyStrip (s : Str) : Str :=
  ((s.dropWhile Char.isWhitespace).reverse.dropWhile Char.isWhitespace).reverse

/-- A glossary entry as produced by `load_glossary`:
`{'bangla': ..., 'sylheti': ...}`. -/
structure GlossaryEntry where
  bangla : Str
  sylheti : Str
deriving DecidableEq

/-- The qualification-and-dedup key of `filter_relevant_glossary`:
`bangla_word = entry['bangla'].strip().lower()`. -/
def entryKey (e : GlossaryEntry) : Str := pyLower (pyStrip e.bangla)

/-- The qualification test of `filter_relevant_glossary`:
`bangla_word in input_tokens or bangla_word in input_sentence.lower()`
(set membership in the token set, or substring of the lower-cased
sentence). -/
def entryMatches (inputTokens : List Str) (lowSent : Str) (e : GlossaryEntry) : Prop :=
  entryKey e ∈ inputTokens ∨ entryKey e <:+: lowSent

instance (it : List Str) (ls : Str) (e : GlossaryEntry) :
    Decidable (entryMatches it ls e) := by
  unfold entryMatches
  infer_instance

/-- The loop body of `filter_relevant_glossary`: walk the glossary keeping
each entry whose key qualifies and has not been seen, and record its key in
`seen`. -/
def filterGlossaryAux (inputTokens : List Str) (lowSent : Str) :
    List GlossaryEntry → List Str → List GlossaryEntry
  | [], _ => []
  | e :: rest, seen =>
    if entryMatches inputTokens lowSent e ∧ entryKey e ∉ seen then
      e :: filterGlossaryAux inputTokens lowSent rest (entryKey e :: seen)
    else filterGlossaryAux inputTokens lowSent rest seen

/-- `filter_relevant_glossary` from `bengali_to_sylheti_prompt_generator.py`:
`input_tokens = set(tokenize_sentence(input_sentence.lower()))`, then a loop
deduplicating by the stripped lower-cased source word. -/
def filter_relevant_glossary (input_sentence : Str) (glossary : List GlossaryEntry) :
    List GlossaryEntry :=
  filterGlossaryAux (tokenize_sentence (pyLower input_sentence))
    (pyLower input_sentence) glossary []

lemma filterGlossaryAux_sublist (it : List Str) (ls : Str)
    (G : List GlossaryEntry) (seen : List Str) :
    filterGlossaryAux it ls G seen <+ G := by
  induction G generalizing seen with
  | nil => simp [filterGlossaryAux]
  | cons e rest ih =>
    rw [filterGlossaryAux]
    by_cases h : entryMatches it ls e ∧ entryKey e ∉ seen
    · rw [if_pos h]
      exact (ih (entryKey e :: seen)).cons₂ e
    · rw [if_neg h]
      exact (ih seen).cons e

lemma filterGlossaryAux_matches (it : List Str) (ls : Str)
    (G : List GlossaryEntry) (seen : List Str) :
    ∀ e ∈ filterGlossaryAux it ls G seen, entryMatches it ls e := by
  induction G generalizing seen with
  | nil => simp [filterGlossaryAux]
  | cons e rest ih =>
    rw [filterGlossaryAux]
    by_cases h : entryMatches it ls e ∧ entryKey e ∉ seen
    · rw [if_pos h]
      intro x hx
      rcases List.mem_cons.mp hx with hx | hx
      · subst hx; exact h.1
      · exact ih (entryKey e :: seen) x hx
    · rw [if_neg h]
      exact ih seen

lemma filterGlossaryAux_keys_fresh (it : List Str) (ls : Str)
    (G : List GlossaryEntry) (seen : List Str) :
    ((filterGlossaryAux it ls G seen).map entryKey).Nodup ∧
    ∀ k ∈ (filterGlossaryAux it ls G seen).map entryKey, k ∉ seen := by
  induction G generalizing seen with
  | nil => simp [filterGlossaryAux]
  | cons e rest ih =>
    rw [filterGlossaryAux]
    by_cases h : entryMatches it ls e ∧ entryKey e ∉ seen
    · rw [if_pos h]
      obtain ⟨hnd, hfresh⟩ := ih (entryKey e :: seen)
      refine ⟨?_, ?_⟩
      · rw [List.map_cons, List.nodup_cons]
        refine ⟨fun hmem => ?_, hnd⟩
        exact (hfresh _ hmem) (List.mem_cons_self _ _)
      · intro k hk
        rw [List.map_cons] at hk
        rcases List.mem_cons.mp hk with hk2 | hk2
        · subst hk2; exact h.2
        · intro hks
          exact hfresh k hk2 (List.mem_cons_of_mem _ hks)
    · rw [if_neg h]
      exact ih seen

lemma filterGlossaryAux_complete (it : List Str) (ls : Str)
    (G : List GlossaryEntry) (seen : List Str) :
    ∀ e ∈ G, entryMatches it ls e →
      entryKey e ∈ seen ∨ entryKey e ∈ (filterGlossaryAux it ls G seen).map entryKey := by
  induction G generalizing seen with
  | nil => simp
  | cons e rest ih =>
    intro x hx hmx
    rw [filterGlossaryAux]
    rcases List.mem_cons.mp hx with hx | hx
    · subst hx
      by_cases h : entryMatches it ls x ∧ entryKey x ∉ seen
      · rw [if_pos h]
        right
        simp
      · rw [if_neg h]
        left
        rcases not_and_or.mp h with h2 | h2
        · exact absurd hmx h2
        · exact not_not.mp h2
    · by_cases h : entryMatches it ls e ∧ entryKey e ∉ seen
      · rw [if_pos h]
        rcases ih (entryKey e :: seen) x hx hmx with h2 | h2
        · rcases List.mem_cons.mp h2 with h3 | h3
          · rw [h3]; right; simp
          · left; exact h3
        · right
          simp only [List.map_cons, List.mem_cons]
          right
          exact h2
      · rw [if_neg h]
        exact ih seen x hx hmx

/-- C3 (amended): an entry of the glossary is kept iff its stripped,
lower-cased source word is a member of the token set of the lower-cased
sentence or a substring of the lower-cased sentence, deduplicating by that
stripped lower-cased word with the first occurrence winning: the output is a
subsequence of the glossary (input order of first qualifying occurrence),
every kept entry qualifies, every kept entry's stripped lower-cased source
word is a substring of the lower-cased sentence, no two kept entries share
the same stripped lower-cased source word, and every qualifying entry's
stripped lower-cased source word appears among the kept keys. -/
theorem filter_relevant_glossary_spec (s : Str) (G : List GlossaryEntry) :
    filter_relevant_glossary s G <+ G ∧
    (∀ e ∈ filter_relevant_glossary s G,
      entryMatches (tokenize_sentence (pyLower s)) (pyLower s) e) ∧
    (∀ e ∈ filter_relevant_glossary s G, entryKey e <:+: pyLower s) ∧
    ((filter_relevant_glossary s G).map entryKey).Nodup ∧
    (∀ e ∈ G, entryMatches (tokenize_sentence (pyLower s)) (pyLower s) e →
      entryKey e ∈ (filter_relevant_glossary s G).map entryKey) := by
  unfold filter_relevant_glossary
  refine ⟨filterGlossaryAux_sublist _ _ G [], filterGlossaryAux_matches _ _ G [], ?_,
    (filterGlossaryAux_keys_fresh _ _ G []).1, ?_⟩
  · intro e he
    rcases filterGlossaryAux_matches _ _ G [] e he with h | h
    · exact tokenize_mem_infix (pyLower s) (entryKey e) h
    · exact h
  · intro e he hm
    rcases filterGlossaryAux_complete _ _ G [] e he hm with h | h
    · simp at h
    · exact h

/-- C3 counterexample: with sentence `"ক"` and the single glossary entry
whose source word is `" ক "` (padded with spaces), the code keeps the entry
(the *stripped* lower-cased word is a token of the sentence), yet the
entry's lower-cased source word is neither a token of the lower-cased
sentence, nor a substring of it — so the claim's inclusion condition and its
substring invariant, stated without stripping, are both violated. -/
theorem filter_relevant_glossary_cex :
    filter_relevant_glossary ['ক'] [⟨[' ', 'ক', ' '], []⟩] = [⟨[' ', 'ক', ' '], []⟩] ∧
    ¬ (pyLower [' ', 'ক', ' '] <:+: pyLower ['ক']) ∧
    pyLower [' ', 'ক', ' '] ∉ tokenize_sentence (pyLower ['ক']) := by
  decide

theorem filter_relevant_glossary_spec_witness :
    entryKey ⟨[' ', 'ক', ' '], []⟩ <:+: pyLower ['ক'] :=
  (filter_relevant_glossary_spec ['ক'] [⟨[' ', 'ক', ' '], []⟩]).2.2.1
    ⟨[' ', 'ক', ' '], []⟩ (by decide)

/-- A few-shot example as loaded from the Vashantor JSON corpus, addressed
by the two fields `select_fewshot_examples` and `construct_prompt` read. -/
structure Example where
  bangla_speech : Str
  sylhet_bangla_speech : Str
deriving DecidableEq

/-- `set(tokenize_sentence(text.lower()))`, the token set both arguments of
the similarity are built from. -/
def tokenSet (text : Str) : Finset Str := (tokenize_sentence (pyLower text)).toFinset

/-- The Jaccard similarity of `select_fewshot_examples`:
`len(I & E) / max(1, len(I | E))`.  Scores are modelled as exact rationals;
the claims proved about them (bounds, symmetry, the 0 and 1 cases) are
insensitive to the rounding of Python's float division. -/
def jaccard (A B : Finset Str) : ℚ :=
  ((A ∩ B).card : ℚ) / ((max 1 (A ∪ B).card : ℕ) : ℚ)

lemma jaccard_denom_pos (A B : Finset Str) :
    (0 : ℚ) < ((max 1 (A ∪ B).card : ℕ) : ℚ) := by
  have : (1 : ℕ) ≤ max 1 (A ∪ B).card := le_max_left 1 _
  exact_mod_cast Nat.lt_of_lt_of_le Nat.zero_lt_one this

lemma jaccard_nonneg (A B : Finset Str) : 0 ≤ jaccard A B :=
  div_nonneg (by positivity) (le_of_lt (jaccard_denom_pos A B))

lemma jaccard_le_one (A B : Finset Str) : jaccard A B ≤ 1 := by
  rw [jaccard, div_le_one (jaccard_denom_pos A B)]
  have h1 : (A ∩ B).card ≤ (A ∪ B).card :=
    Finset.card_le_card (Finset.inter_subset_union)
  have h2 : (A ∪ B).card ≤ max 1 (A ∪ B).card := le_max_right 1 _
  exact_mod_cast le_trans h1 h2

lemma jaccard_self_of_nonempty (A : Finset Str) (hne : A.Nonempty) :
    jaccard A A = 1 := by
  rw [jaccard, Finset.inter_self, Finset.union_self]
  have hpos : 0 < A.card := Finset.card_pos.mpr hne
  rw [max_eq_right hpos]
  exact div_self (by exact_mod_cast hpos.ne')

lemma jaccard_empty_left (B : Finset Str) : jaccard ∅ B = 0 := by
  rw [jaccard]
  simp

/-- Every similarity against token set `A` is at most the similarity of `A`
with itself (which is the score an example source identical to the input
sentence receives). -/
lemma jaccard_le_self (A B : Finset Str) : jaccard A B ≤ jaccard A A := by
  by_cases hA : A = ∅
  · subst hA
    rw [jaccard_empty_left, jaccard_empty_left]
  · rw [jaccard_self_of_nonempty A (Finset.nonempty_iff_ne_empty.mpr hA)]
    exact jaccard_le_one A B

/-- C6: the similarity is symmetric, lies in `[0, 1]`, equals `1` on equal
non-empty token sets, and equals `0` when both token sets are empty. -/
theorem jaccard_props (A B : Finset Str) :
    jaccard A B = jaccard B A ∧ 0 ≤ jaccard A B ∧ jaccard A B ≤ 1 ∧
    (A = B → A.Nonempty → jaccard A B = 1) ∧
    (A = ∅ → B = ∅ → jaccard A B = 0) := by
  refine ⟨?_, jaccard_nonneg A B, jaccard_le_one A B, ?_, ?_⟩
  · unfold jaccard
    rw [Finset.inter_comm, Finset.union_comm]
  · intro hAB hne
    subst hAB
    exact jaccard_self_of_nonempty A hne
  · intro hA hB
    subst hA
    subst hB
    exact jaccard_empty_left ∅

theorem jaccard_props_witness :
    jaccard (tokenSet ['ক']) (tokenSet ['ক']) = 1 ∧ jaccard ∅ ∅ = 0 :=
  ⟨(jaccard_props (tokenSet ['ক']) (tokenSet ['ক'])).2.2.2.1 rfl (by decide),
   (jaccard_props ∅ ∅).2.2.2.2 rfl rfl⟩

/-- One insertion step of a stable descending sort on (score, example)
pairs, comparing only scores (the Python sort key `lambda x: x[0]`): the
inserted pair goes before the first pair whose score is not greater than
its own, so among equal scores an earlier pool entry stays first. -/
def insertDesc (x : ℚ × Example) : List (ℚ × Example) → List (ℚ × Example)
  | [] => [x]
  | y :: ys => if y.1 ≤ x.1 then x :: y :: ys else y :: insertDesc x ys

/-- `scored_examples.sort(key=lambda x: x[0], reverse=True)`.  CPython's
sort is stable by the language reference, and with `reverse=True` records
with equal keys keep their original order; a stable descending sort has
exactly one possible output, computed here by insertion. -/
def sortDesc : List (ℚ × Example) → List (ℚ × Example)
  | [] => []
  | x :: xs => insertDesc x (sortDesc xs)

lemma insertDesc_perm (x : ℚ × Example) (l : List (ℚ × Example)) :
    insertDesc x l ~ x :: l := by
  induction l with
  | nil => rfl
  | cons y ys ih =>
    rw [insertDesc]
    by_cases h : y.1 ≤ x.1
    · rw [if_pos h]
    · rw [if_neg h]
      exact ((ih.cons y).trans (List.Perm.swap x y ys))

lemma sortDesc_perm (l : List (ℚ × Example)) : sortDesc l ~ l := by
  induction l with
  | nil => rfl
  | cons x xs ih => exact (insertDesc_perm x (sortDesc xs)).trans (ih.cons x)

lemma insertDesc_sorted (x : ℚ × Example) (l : List (ℚ × Example))
    (hl : l.Pairwise (fun a b => b.1 ≤ a.1)) :
    (insertDesc x l).Pairwise (fun a b => b.1 ≤ a.1) := by
  induction l with
  | nil => simp [insertDesc]
  | cons y ys ih =>
    rw [insertDesc]
    rcases List.pairwise_cons.mp hl with ⟨hy, hys⟩
    by_cases h : y.1 ≤ x.1
    · rw [if_pos h]
      refine List.pairwise_cons.mpr ⟨?_, hl⟩
      intro z hz
      rcases List.mem_cons.mp hz with hz | hz
      · subst hz; exact h
      · exact le_trans (hy z hz) h
    · rw [if_neg h]
      refine List.pairwise_cons.mpr ⟨?_, ih hys⟩
      intro z hz
      have hz2 := (insertDesc_perm x ys).mem_iff.mp hz
      rcases List.mem_cons.mp hz2 with hz2 | hz2
      · subst hz2; exact le_of_lt (lt_of_not_le h)
      · exact hy z hz2

lemma sortDesc_sorted (l : List (ℚ × Example)) :
    (sortDesc l).Pairwise (fun a b => b.1 ≤ a.1) := by
  induction l with
  | nil => simp [sortDesc]
  | cons x xs ih => exact insertDesc_sorted x (sortDesc xs) ih

lemma insertDesc_filter_score (x : ℚ × Example) (l : List (ℚ × Example)) (q : ℚ) :
    (insertDesc x l).filter (fun a => decide (a.1 = q)) =
      if x.1 = q then x :: l.filter (fun a => decide (a.1 = q))
      else l.filter (fun a => decide (a.1 = q)) := by
  induction l with
  | nil =>
    rw [insertDesc]
    by_cases hq : x.1 = q
    · rw [if_pos hq]; simp [List.filter_cons, hq]
    · rw [if_neg hq]; simp [List.filter_cons, hq]
  | cons y ys ih =>
    rw [insertDesc]
    by_cases h : y.1 ≤ x.1
    · rw [if_pos h]
      by_cases hq : x.1 = q
      · rw [if_pos hq]
        simp [List.filter_cons, hq]
      · rw [if_neg hq]
        simp [List.filter_cons, hq]
    · rw [if_neg h]
      have hxy : x.1 < y.1 := lt_of_not_le h
      by_cases hq : x.1 = q
      · rw [if_pos hq]
        have hyq : ¬ (y.1 = q) := by
          intro hcon
          rw [hcon, ← hq] at hxy
          exact lt_irrefl _ hxy
        rw [List.filter_cons_of_neg (by simp [hyq]), ih, if_pos hq,
          List.filter_cons_of_neg (by simp [hyq])]
      · rw [if_neg hq]
        by_cases hyq : y.1 = q
        · rw [List.filter_cons_of_pos (by simp [hyq]), ih, if_neg hq,
            List.filter_cons_of_pos (by simp [hyq])]
        · rw [List.filter_cons_of_neg (by simp [hyq]), ih, if_neg hq,
            List.filter_cons_of_neg (by simp [hyq])]

lemma sortDesc_filter_score (l : List (ℚ × Example)) (q : ℚ) :
    (sortDesc l).filter (fun a => decide (a.1 = q)) =
      l.filter (fun a => decide (a.1 = q)) := by
  induction l with
  | nil => rfl
  | cons x xs ih =>
    rw [sortDesc, insertDesc_filter_score]
    by_cases hq : x.1 = q
    · rw [if_pos hq, ih, List.filter_cons]
      simp [hq]
    · rw [if_neg hq, ih, List.filter_cons]
      simp [hq]

/-- The scored pool built by `select_fewshot_examples`:
`[(similarity(input, e), e) for e in examples]`, where the similarity
compares the input-sentence token set with the example's source-sentence
token set. -/
def scored_examples (input_sentence : Str) (examples : List Example) :
    List (ℚ × Example) :=
  examples.map fun e =>
    (jaccard (tokenSet input_sentence) (tokenSet e.bangla_speech), e)

/-- The scored pool after
`scored_examples.sort(key=lambda x: x[0], reverse=True)`. -/
def sorted_scored (input_sentence : Str) (examples : List Example) :
    List (ℚ × Example) :=
  sortDesc (scored_examples input_sentence examples)

/-- `max(1, int(num_examples * 0.6))`.  For `k ≥ 0` this is
`max 1 ⌊3k/5⌋`.  Python evaluates `int(k * 0.6)` in floating point, which
agrees with `⌊3k/5⌋` for every `|k| < 2^50` (the rounding error of `k*0.6`
stays below half an ulp of the exact value `0.6k`); for `k ≤ 0` the inner
truncation is at most `0` and the outer `max` yields `1` either way. -/
def topCount (k : ℤ) : ℕ := max 1 ((3 * k).toNat / 5)

/-- The top-similarity tranche
`[ex for _, ex in scored_examples[:max(1, int(num_examples * 0.6))]]`. -/
def top_examples (s : Str) (examples : List Example) (k : ℤ) : List Example :=
  ((sorted_scored s examples).take (topCount k)).map Prod.snd

/-- The remaining pool
`[ex for _, ex in scored_examples[max(1, int(num_examples * 0.6)):]]`. -/
def remaining_examples (s : Str) (examples : List Example) (k : ℤ) : List Example :=
  ((sorted_scored s examples).drop (topCount k)).map Prod.snd

/-- The second argument `select_fewshot_examples` passes to `random.sample`:
`min(len(remaining), num_examples - len(top_examples))`. -/
def sample_size (s : Str) (examples : List Example) (k : ℤ) : ℤ :=
  min ((remaining_examples s examples k).length : ℤ)
    (k - ((top_examples s examples k).length : ℤ))

/-- `select_fewshot_examples` raises an exception: on the sampling path
(`len(examples) > num_examples`), `random.sample(population, n)` raises
`ValueError` exactly when its size argument `n` is negative (it can never
exceed the population here, being clamped by `min`). -/
def SelectRaises (s : Str) (examples : List Example) (k : ℤ) : Prop :=
  ¬ ((examples.length : ℤ) ≤ k) ∧ sample_size s examples k < 0

/-- The input/output relation of `select_fewshot_examples`, quantifying over
the random draws.  Either the pool is small enough and is returned as is
(`if len(examples) <= num_examples: return examples`), or `random.sample`
picks `sample_size` distinct positions of the remaining tranche in some
order — a permutation of a sublist `u` — and `random.shuffle` permutes
`top_examples + random_examples`; the sample's internal order and the final
shuffle compose into the single permutation `out ~ top_examples ++ u`. -/
def SelectReturns (s : Str) (examples : List Example) (k : ℤ)
    (out : List Example) : Prop :=
  ((examples.length : ℤ) ≤ k ∧ out = examples) ∨
  (¬ ((examples.length : ℤ) ≤ k) ∧ 0 ≤ sample_size s examples k ∧
    ∃ u, u <+ remaining_examples s examples k ∧
      (u.length : ℤ) = sample_size s examples k ∧
      out ~ top_examples s examples k ++ u)

/-- C5: the similarity sort is stable.  The sorted sequence is
non-increasing in the score, and for every score value `q` the subsequence
of entries scored exactly `q` is identical — elements and order — to the
subsequence of such entries of the unsorted scored pool: examples with
equal similarity stay in original pool order. -/
theorem sorted_scored_stable (s : Str) (examples : List Example) (q : ℚ) :
    (sorted_scored s examples).Pairwise (fun a b => b.1 ≤ a.1) ∧
    (sorted_scored s examples).filter (fun a => decide (a.1 = q)) =
      (scored_examples s examples).filter (fun a => decide (a.1 = q)) :=
  ⟨sortDesc_sorted _, sortDesc_filter_score _ q⟩

lemma sorted_scored_length (s : Str) (examples : List Example) :
    (sorted_scored s examples).length = examples.length := by
  rw [sorted_scored, (sortDesc_perm _).length_eq, scored_examples,
    List.length_map]

lemma top_examples_length (s : Str) (examples : List Example) (k : ℤ) :
    (top_examples s examples k).length = min (topCount k) examples.length := by
  rw [top_examples, List.length_map, List.length_take, sorted_scored_length]

lemma remaining_examples_length (s : Str) (examples : List Example) (k : ℤ) :
    (remaining_examples s examples k).length = examples.length - topCount k := by
  rw [remaining_examples, List.length_map, List.length_drop, sorted_scored_length]

lemma topCount_ge_one (k : ℤ) : 1 ≤ topCount k := le_max_left 1 _

lemma topCount_le_toNat (k : ℤ) (hk : 1 ≤ k) : topCount k ≤ k.toNat := by
  rw [topCount]
  omega

/-- On the sampling branch, a normal return forces `k ≥ 1`, a full
top tranche (`topCount k` elements), and an output of exactly `k`
examples. -/
lemma select_branch_facts (s : Str) (examples : List Example) (k : ℤ)
    (out : List Example)
    (hgt : ¬ ((examples.length : ℤ) ≤ k)) (hss : 0 ≤ sample_size s examples k)
    (u : List Example) (hul : (u.length : ℤ) = sample_size s examples k)
    (hperm : out ~ top_examples s examples k ++ u) :
    1 ≤ k ∧ (top_examples s examples k).length = topCount k ∧
      out.length = k.toNat := by
  have htop := top_examples_length s examples k
  have hrem := remaining_examples_length s examples k
  have hone := topCount_ge_one k
  have hss2 : 0 ≤ sample_size s examples k := hss
  rw [sample_size, htop, hrem] at hss2
  have hL1 : 1 ≤ examples.length := by
    by_contra hL
    have hL0 : examples.length = 0 := by omega
    rw [hL0] at hss2
    simp at hss2
    omega
  have hk1 : 1 ≤ k := by
    have := le_min_iff.mp hss2
    omega
  have htc := topCount_le_toNat k hk1
  have htopfull : (top_examples s examples k).length = topCount k := by
    rw [htop]
    omega
  refine ⟨hk1, htopfull, ?_⟩
  have hout : out.length = (top_examples s examples k).length + u.length :=
    hperm.length_eq.trans (List.length_append _ _)
  rw [sample_size, htop, hrem] at hul
  omega

/-- C1: whenever the pool is strictly larger than `k` and the call returns
normally, the selection has at most `k` examples, at least
`max(1, ⌊0.6k⌋)` examples, and the whole top-similarity tranche — the first
`max(1, ⌊0.6k⌋)` entries of the similarity-descending order — is contained
in the selection (as a sub-multiset). -/
theorem select_fewshot_bounds (s : Str) (examples : List Example) (k : ℤ)
    (out : List Example) (hk : k < (examples.length : ℤ))
    (hret : SelectReturns s examples k out) :
    (out.length : ℤ) ≤ k ∧ topCount k ≤ out.length ∧
    (top_examples s examples k).length = topCount k ∧
    top_examples s examples k <+~ out := by
  rcases hret with ⟨hle, _⟩ | ⟨hgt, hss, u, hu, hul, hperm⟩
  · omega
  · obtain ⟨hk1, htopfull, hout⟩ :=
      select_branch_facts s examples k out hgt hss u hul hperm
    refine ⟨by omega, ?_, htopfull, ?_⟩
    · have := topCount_le_toNat k hk1
      omega
    · exact ((List.sublist_append_left _ u).subperm).trans hperm.symm.subperm

/-- C10: for every `k ≥ 1`, a normal return holds exactly
`min(len(examples), k)` selected examples: the remaining tranche always
holds at least `k - top_n` elements, so under-filling is unreachable. -/
theorem select_fewshot_count (s : Str) (examples : List Example) (k : ℤ)
    (out : List Example) (hk : 1 ≤ k)
    (hret : SelectReturns s examples k out) :
    out.length = min examples.length k.toNat := by
  rcases hret with ⟨hle, hout⟩ | ⟨hgt, hss, u, hu, hul, hperm⟩
  · subst hout
    omega
  · obtain ⟨-, -, hout⟩ :=
      select_branch_facts s examples k out hgt hss u hul hperm
    omega

/-- C4: when the pool does not exceed `k`, the call returns the pool itself,
element for element in order — no sampling and no shuffling happen on that
branch. -/
theorem select_fewshot_small_pool (s : Str) (examples : List Example) (k : ℤ)
    (out : List Example) (hle : (examples.length : ℤ) ≤ k)
    (hret : SelectReturns s examples k out) : out = examples := by
  rcases hret with ⟨-, hout⟩ | ⟨hgt, -⟩
  · exact hout
  · exact absurd hle hgt

/-- C2 counterexample: with a non-empty pool of one (empty-text) example and
`k = 0`, the pool exceeds `k`, the top tranche takes `max(1, 0) = 1`
example, `num_examples - len(top_examples) = -1` is negative, and
`random.sample` raises `ValueError`; no normal return exists, contradicting
the claim that at least one example is returned. -/
theorem select_fewshot_zero_k_cex :
    SelectRaises [] [⟨[], []⟩] 0 ∧ ¬ ∃ out, SelectReturns [] [⟨[], []⟩] 0 out := by
  have hsz : sample_size [] [⟨[], []⟩] 0 = -1 := by decide
  constructor
  · exact ⟨by decide, by rw [hsz]; decide⟩
  · rintro ⟨out, ⟨hle, -⟩ | ⟨-, hss, -⟩⟩
    · exact absurd hle (by decide)
    · rw [hsz] at hss
      exact absurd hss (by decide)

/-- C2 (amended): for every `k ≤ 0` and non-empty pool with `len(pool) > k`,
`select_fewshot_examples` does not return but raises `ValueError` (the
sample size `num_examples - len(top_examples)` is negative); for every
`k ≥ 1` the function is total — some normal return exists for every pool. -/
theorem select_fewshot_nonpositive_k :
    (∀ (s : Str) (examples : List Example) (k : ℤ), k ≤ 0 →
      k < (examples.length : ℤ) → examples ≠ [] → SelectRaises s examples k) ∧
    (∀ (s : Str) (examples : List Example) (k : ℤ), 1 ≤ k →
      ∃ out, SelectReturns s examples k out) := by
  constructor
  · intro s examples k hk hkl hne
    have hL1 : 1 ≤ examples.length := List.length_pos.mpr hne
    have htop := top_examples_length s examples k
    have hone := topCount_ge_one k
    refine ⟨by omega, ?_⟩
    rw [sample_size, htop]
    have : k - ((min (topCount k) examples.length : ℕ) : ℤ) < 0 := by omega
    omega
  · intro s examples k hk
    by_cases hle : (examples.length : ℤ) ≤ k
    · exact ⟨examples, Or.inl ⟨hle, rfl⟩⟩
    · have htop := top_examples_length s examples k
      have hrem := remaining_examples_length s examples k
      have htc := topCount_le_toNat k hk
      have hL : k.toNat < examples.length := by omega
      have hss : 0 ≤ sample_size s examples k := by
        rw [sample_size, htop, hrem]
        omega
      refine ⟨top_examples s examples k ++
          (remaining_examples s examples k).take (sample_size s examples k).toNat,
        Or.inr ⟨hle, hss, (remaining_examples s examples k).take
          (sample_size s examples k).toNat, List.take_sublist _ _, ?_, Perm.refl _⟩⟩
      rw [List.length_take, hrem]
      rw [sample_size, htop, hrem]
      omega

/-- A concrete run of the sampling branch: pool of two empty-text examples,
`k = 1`; the top tranche is one example, the sample is empty, and the
returned selection is the top example alone. -/
lemma selectReturns_example :
    SelectReturns [] [⟨[], []⟩, ⟨[], []⟩] 1 [⟨[], []⟩] := by
  have htopc : topCount 1 = 1 := by decide
  have hss : sample_size [] [⟨[], []⟩, ⟨[], []⟩] 1 = 0 := by
    rw [sample_size, top_examples_length, remaining_examples_length, htopc]
    decide
  have htop : top_examples [] [⟨[], []⟩, ⟨[], []⟩] 1 = [⟨[], []⟩] := by
    rw [top_examples, sorted_scored, scored_examples, htopc]
    simp [sortDesc, insertDesc]
  refine Or.inr ⟨by decide, by rw [hss], [], List.nil_sublist _,
    by rw [hss]; decide, ?_⟩
  rw [htop, List.append_nil]

theorem select_fewshot_bounds_witness :
    ((([⟨[], []⟩] : List Example).length : ℤ) ≤ 1 ∧
     topCount 1 ≤ ([⟨[], []⟩] : List Example).length ∧
     (top_examples [] [⟨[], []⟩, ⟨[], []⟩] 1).length = topCount 1 ∧
     top_examples [] [⟨[], []⟩, ⟨[], []⟩] 1 <+~ [⟨[], []⟩]) :=
  select_fewshot_bounds [] [⟨[], []⟩, ⟨[], []⟩] 1 [⟨[], []⟩] (by decide)
    selectReturns_example

theorem select_fewshot_count_witness :
    ([⟨[], []⟩] : List Example).length =
      min ([⟨[], []⟩, ⟨[], []⟩] : List Example).length (1 : ℤ).toNat :=
  select_fewshot_count [] [⟨[], []⟩, ⟨[], []⟩] 1 [⟨[], []⟩] (by decide)
    selectReturns_example

theorem select_fewshot_small_pool_witness :
    [(⟨[], []⟩ : Example)] = [⟨[], []⟩] :=
  select_fewshot_small_pool [] [⟨[], []⟩] 1 [⟨[], []⟩] (by decide)
    (Or.inl ⟨by decide, rfl⟩)

theorem select_fewshot_nonpositive_k_witness :
    SelectRaises [] [⟨[], []⟩] 0 ∧ ∃ out, SelectReturns [] [⟨[], []⟩] 1 out :=
  ⟨select_fewshot_nonpositive_k.1 [] [⟨[], []⟩] 0 (by decide) (by decide) (by decide),
   select_fewshot_nonpositive_k.2 [] [⟨[], []⟩] 1 (by decide)⟩

/-- In a descending-sorted list whose scores are all at most `m`, the
entries scored exactly `m` form a prefix. -/
lemma filter_top_score_prefix (L : List (ℚ × Example)) (m : ℚ)
    (hs : L.Pairwise (fun a b => b.1 ≤ a.1)) (hall : ∀ x ∈ L, x.1 ≤ m) :
    L.filter (fun a => decide (a.1 = m)) <+: L := by
  induction L with
  | nil => exact List.nil_prefix
  | cons x xs ih =>
    rcases List.pairwise_cons.mp hs with ⟨hx, hxs⟩
    by_cases hxm : x.1 = m
    · rw [List.filter_cons_of_pos (by simp [hxm])]
      exact List.cons_prefix_cons.mpr
        ⟨rfl, ih hxs fun y hy => hall y (List.mem_cons_of_mem _ hy)⟩
    · rw [List.filter_cons_of_neg (by simp [hxm])]
      have hnone : xs.filter (fun a => decide (a.1 = m)) = [] := by
        rw [List.filter_eq_nil_iff]
        intro y hy
        have h1 : y.1 ≤ x.1 := hx y hy
        have h2 : x.1 ≤ m := hall x (List.mem_cons_self _ _)
        have : ¬ (y.1 = m) := fun he => hxm (le_antisymm h2 (he ▸ h1))
        simp [this]
      rw [hnone]
      exact List.nil_prefix

/-- An entry sitting at the third position of a list, whose score passes the
filter, is among the first three entries of the filtered list. -/
lemma mem_take_three_filter (p : (ℚ × Example) → Bool) (x y v : ℚ × Example)
    (tail : List (ℚ × Example)) (hv : p v = true) :
    v ∈ ((x :: y :: v :: tail).filter p).take 3 := by
  by_cases hx : p x <;> by_cases hy : p y <;>
    simp [List.filter_cons, hx, hy, hv]

/-- C7: pool of 10 examples, `k = 5`, input sentence identical to the
source sentence of example #3 (index 2): example #3 is in the
`top_n = 3` tranche — its similarity is a maximum, and the stable sort
cannot push it below the at most two pool entries before it — and hence in
every normal return's selection. -/
theorem select_identical_in_top (P : List Example) (h2 : 2 < P.length)
    (hlen : P.length = 10) (out : List Example)
    (hret : SelectReturns (P.get ⟨2, h2⟩).bangla_speech P 5 out) :
    P.get ⟨2, h2⟩ ∈ top_examples (P.get ⟨2, h2⟩).bangla_speech P 5 ∧
    P.get ⟨2, h2⟩ ∈ out := by
  rcases P with _ | ⟨a, _ | ⟨b, _ | ⟨c, rest⟩⟩⟩
  · simp at h2
  · simp at h2
  · simp at h2
  have hget : (a :: b :: c :: rest).get ⟨2, h2⟩ = c := rfl
  rw [hget] at hret ⊢
  set s := c.bangla_speech with hs
  set I := tokenSet s with hI
  set m := jaccard I I with hm
  set f : Example → ℚ × Example :=
    fun e => (jaccard I (tokenSet e.bangla_speech), e) with hf
  have hscored : scored_examples s (a :: b :: c :: rest) =
      f a :: f b :: (m, c) :: rest.map f := rfl
  set L := sorted_scored s (a :: b :: c :: rest) with hL
  set p : (ℚ × Example) → Bool := fun x => decide (x.1 = m) with hp
  have hall : ∀ x ∈ L, x.1 ≤ m := by
    intro x hx
    have hx2 : x ∈ scored_examples s (a :: b :: c :: rest) :=
      (sortDesc_perm _).mem_iff.mp hx
    obtain ⟨e, -, hfe⟩ :=
      List.mem_map.mp (by rw [scored_examples] at hx2; exact hx2)
    rw [← hfe]
    exact jaccard_le_self I (tokenSet e.bangla_speech)
  have hstab : L.filter p = (scored_examples s (a :: b :: c :: rest)).filter p :=
    sortDesc_filter_score _ m
  have hv_take : (m, c) ∈ ((scored_examples s (a :: b :: c :: rest)).filter p).take 3 := by
    rw [hscored]
    exact mem_take_three_filter p (f a) (f b) (m, c) (rest.map f) (by simp [hp])
  have hpre : L.filter p <+: L :=
    filter_top_score_prefix L m (sortDesc_sorted _) hall
  have hvL : (m, c) ∈ L.take 3 := by
    obtain ⟨t, ht⟩ := hpre
    rw [← ht, List.take_append_eq_append_take]
    exact List.mem_append_left _ (by rw [hstab]; exact hv_take)
  have htopc : topCount 5 = 3 := by decide
  have hctop : c ∈ top_examples s (a :: b :: c :: rest) 5 := by
    rw [top_examples, htopc]
    exact List.mem_map_of_mem Prod.snd hvL
  refine ⟨hctop, ?_⟩
  rcases hret with ⟨hle, -⟩ | ⟨-, -, u, -, -, hperm⟩
  · rw [hlen] at hle
    exact absurd hle (by decide)
  · exact hperm.symm.mem_iff.mp (List.mem_append_left u hctop)

theorem select_identical_in_top_witness :
    (List.replicate 10 (⟨[], []⟩ : Example)).get ⟨2, by decide⟩ ∈
      top_examples
        ((List.replicate 10 (⟨[], []⟩ : Example)).get ⟨2, by decide⟩).bangla_speech
        (List.replicate 10 ⟨[], []⟩) 5 ∧
    (List.replicate 10 (⟨[], []⟩ : Example)).get ⟨2, by decide⟩ ∈
      top_examples
        ((List.replicate 10 (⟨[], []⟩ : Example)).get ⟨2, by decide⟩).bangla_speech
        (List.replicate 10 ⟨[], []⟩) 5 ++
      (remaining_examples
        ((List.replicate 10 (⟨[], []⟩ : Example)).get ⟨2, by decide⟩).bangla_speech
        (List.replicate 10 ⟨[], []⟩) 5).take 2 := by
  have htopc : topCount 5 = 3 := by decide
  have hss : sample_size
      ((List.replicate 10 (⟨[], []⟩ : Example)).get ⟨2, by decide⟩).bangla_speech
      (List.replicate 10 ⟨[], []⟩) 5 = 2 := by
    rw [sample_size, top_examples_length, remaining_examples_length, htopc]
    decide
  have hu : (((remaining_examples
      ((List.replicate 10 (⟨[], []⟩ : Example)).get ⟨2, by decide⟩).bangla_speech
      (List.replicate 10 ⟨[], []⟩) 5).take 2).length : ℤ) = 2 := by
    rw [List.length_take, remaining_examples_length, htopc]
    decide
  exact select_identical_in_top (List.replicate 10 ⟨[], []⟩) (by decide) (by decide)
    _ (Or.inr ⟨by decide, by rw [hss]; decide, _, List.take_sublist _ _,
      by rw [hu, hss], Perm.refl _⟩)

/-- The fixed instructional preamble (`system_instructions`) of
`construct_prompt`, transcribed verbatim from the triple-quoted Python
literal, including its trailing space on the first line and the 12-space
continuation indents. -/
def system_instructions : Str :=
  ("You are an expert translator from Bengali (Bangla) to Sylheti. \n            Follow these guidelines for translation:\n            1. Preserve the original meaning and intent of the Bengali sentence\n            2. Use appropriate Sylheti vocabulary and grammar patterns\n            3. Respect idioms and cultural expressions specific to Sylheti\n            4. Follow the few-shot examples provided below\n            5. Utilize the glossary entries when appropriate\n            6. Maintain the tone and register of the original sentence\n\n            Translate the Bengali text to natural, fluent Sylheti.").data

/-- One rendered few-shot example:
`f"{i}. Bangla: {example['bangla_speech']}\n   Sylheti: {example['sylhet_bangla_speech']}\n\n"`. -/
def exampleLine (i : ℕ) (e : Example) : Str :=
  (toString i).data ++ ". Bangla: ".data ++ e.bangla_speech ++
    "\n   Sylheti: ".data ++ e.sylhet_bangla_speech ++ "\n\n".data

/-- One rendered glossary entry:
`f"{i}. Bangla: {entry['bangla']} → Sylheti: {entry['sylheti']}\n"`. -/
def glossaryLine (i : ℕ) (g : GlossaryEntry) : Str :=
  (toString i).data ++ ". Bangla: ".data ++ g.bangla ++
    " → Sylheti: ".data ++ g.sylheti ++ "\n".data

/-- The accumulation loop `for i, x in enumerate(xs, start)` appending one
rendered line per element. -/
def numberedLines {α : Type} (line : ℕ → α → Str) : ℕ → List α → Str
  | _, [] => []
  | i, x :: xs => line i x ++ numberedLines line (i + 1) xs

/-- `examples_text` of `construct_prompt` (header plus one block per
selected example, numbered from 1). -/
def examples_text (selected : List Example) : Str :=
  "Few-shot examples:\n".data ++ numberedLines exampleLine 1 selected

/-- `glossary_text` of `construct_prompt` (header plus one line per
relevant entry, numbered from 1). -/
def glossary_text (gl : List GlossaryEntry) : Str :=
  "Glossary:\n".data ++ numberedLines glossaryLine 1 gl

/-- `input_text = f"Bangla: {input_sentence}\nSylheti:"`. -/
def input_text (input_sentence : Str) : Str :=
  "Bangla: ".data ++ input_sentence ++ "\nSylheti:".data

/-- `construct_prompt`:
`f"{system_instructions}\n\n{examples_text}\n{glossary_text}\n\n{input_text}"`. -/
def construct_prompt (input_sentence : Str) (selected : List Example)
    (gl : List GlossaryEntry) : Str :=
  system_instructions ++ "\n\n".data ++ examples_text selected ++ "\n".data ++
    glossary_text gl ++ "\n\n".data ++ input_text input_sentence

/-- C9: with an empty example list and an empty glossary, the composed
prompt is a non-empty string containing the instructional preamble and the
echoed input sentence; and entries whose fields are empty strings are still
rendered as (empty-slotted) numbered lines, not filtered out. -/
theorem construct_prompt_spec (s : Str) :
    construct_prompt s [] [] ≠ [] ∧
    system_instructions <:+: construct_prompt s [] [] ∧
    s <:+: construct_prompt s [] [] ∧
    examples_text [⟨[], []⟩] = "Few-shot examples:\n1. Bangla: \n   Sylheti: \n\n".data ∧
    glossary_text [⟨[], []⟩] = "Glossary:\n1. Bangla:  → Sylheti: \n".data := by
  refine ⟨?_, ?_, ?_, by decide, by decide⟩
  · intro h
    rw [construct_prompt] at h
    simp only [List.append_eq_nil] at h
    exact absurd h.1.1.1.1.1 (by decide)
  · refine ⟨[], "\n\n".data ++ examples_text [] ++ "\n".data ++
      glossary_text [] ++ "\n\n".data ++ input_text s, ?_⟩
    rw [construct_prompt]
    simp [List.append_assoc]
  · refine ⟨system_instructions ++ "\n\n".data ++ examples_text [] ++ "\n".data ++
      glossary_text [] ++ "\n\n".data ++ "Bangla: ".data, "\nSylheti:".data, ?_⟩
    rw [construct_prompt, input_text]
    simp [List.append_assoc]
